/-
Verification of the hit-deduplication and FASTQ-conversion scripts
(`scripts/collect_unique_hits.py` and `scripts/prepare_fastas.py`).

The Python code is shallowly embedded:
* a parsed BLAST row (`dict(zip(BLAST_COLUMNS, line))`) becomes the
  structure `Hit` with one `String` field per column, in column order;
* the `int(...)` / `float(...)` conversions performed inside
  `should_replace` become `pyInt` / `pyFloat` (machine floats are
  modelled as exact rationals; on non-numeric text Python raises a
  `ValueError` while the model totalises the conversion with default 0 —
  no claim concerns that path);
* file I/O becomes functions over the list of input lines, and the
  observable behaviour of `main` becomes the inductive `MainOutcome`;
* a raised exception becomes `Except.error` / a `some` error message,
  carrying the exception text.
-/
import Mathlib

set_option maxHeartbeats 1000000

/-! ## Python-style numeric conversion of field text -/

/-- Value of a list of decimal digit characters, most significant first. -/
def digitsToNat (ds : List Char) : Nat :=
  ds.foldl (fun n c => 10 * n + (c.toNat - '0'.toNat)) 0

/-- Partial model of Python `int(s)`: an optional sign followed by a
nonempty run of decimal digits (surrounding whitespace and underscore
grouping are not modelled; BLAST fields never use them). -/
def pyIntOpt (s : String) : Option Int :=
  let p : Int × List Char :=
    match s.data with
    | '+' :: t => (1, t)
    | '-' :: t => (-1, t)
    | cs => (1, cs)
  if p.2 ≠ [] ∧ p.2.all Char.isDigit then some (p.1 * digitsToNat p.2) else none

/-- Partial model of Python `float(s)`: optional sign, a mantissa
`digits[.digits]` with at least one digit, and an optional exponent
`e/E [sign] digits`.  The value is computed exactly in `ℚ`
(`inf` / `nan` and hexadecimal forms are not modelled). -/
def pyRatOpt (s : String) : Option Rat :=
  let p : Rat × List Char :=
    match s.data with
    | '+' :: t => (1, t)
    | '-' :: t => (-1, t)
    | cs => (1, cs)
  let ip := p.2.takeWhile Char.isDigit
  let r1 := p.2.dropWhile Char.isDigit
  let fp := match r1 with
    | '.' :: t => t.takeWhile Char.isDigit
    | _ => []
  let r2 := match r1 with
    | '.' :: t => t.dropWhile Char.isDigit
    | _ => r1
  if ip = [] ∧ fp = [] then none
  else
    let mant : Rat := p.1 * (digitsToNat (ip ++ fp) : Rat) / (10 : Rat) ^ fp.length
    match r2 with
    | [] => some mant
    | e :: t =>
      if e = 'e' ∨ e = 'E' then
        let q : Int × List Char :=
          match t with
          | '+' :: t2 => (1, t2)
          | '-' :: t2 => (-1, t2)
          | cs => (1, cs)
        let ed := q.2.takeWhile Char.isDigit
        if ed = [] ∨ q.2.dropWhile Char.isDigit ≠ [] then none
        else some (mant * (10 : Rat) ^ (q.1 * (digitsToNat ed : Int)))
      else none

/-- Total version of `int(s)` used by the comparison cascade. -/
def pyInt (s : String) : Int := (pyIntOpt s).getD 0

/-- Total version of `float(s)` used by the comparison cascade. -/
def pyFloat (s : String) : Rat := (pyRatOpt s).getD 0

/-! ## Data model: one parsed BLAST tabular row -/

/-- The `BLAST_COLUMNS` list of `collect_unique_hits.py`: the fixed 13-column
schema of the tabular input. -/
def BLAST_COLUMNS : List String :=
  ["qseqid", "sseqid", "pident", "length", "mismatch", "gapopen",
   "qstart", "qend", "sstart", "send", "evalue", "bitscore", "sseq"]

/-- One Alignment Record: the `dict(zip(BLAST_COLUMNS, line))` built by
`load_hits`, with one textual field per column in schema order. -/
structure Hit where
  qseqid : String
  sseqid : String
  pident : String
  length : String
  mismatch : String
  gapopen : String
  qstart : String
  qend : String
  sstart : String
  send : String
  evalue : String
  bitscore : String
  sseq : String
deriving DecidableEq, Repr

/-! ## Record Parser (`load_hits`) -/

/-- Model of `csv.reader(fh, delimiter="\t")` applied to one input line:
an empty line yields no fields, any other line is split at tab
characters (quoting is not modelled: BLAST tabular output never quotes
fields). -/
def splitTabs : List Char → List (List Char)
  | [] => [[]]
  | c :: rest =>
    match splitTabs rest with
    | [] => [[c]]
    | r :: rs => if c = '\t' then [] :: r :: rs else (c :: r) :: rs

/-- Fields of one raw input line, as `csv.reader` yields them. -/
def pyCsvRow (line : String) : List String :=
  if line.data = [] then [] else (splitTabs line.data).map String.mk

/-- Error text raised by `load_hits` on a row with the wrong number of
columns; it embeds the offending row's full field list. -/
def colsErrorMsg (row : List String) : String :=
  "Expected " ++ toString BLAST_COLUMNS.length ++ " columns but found " ++
    toString row.length ++ " in line: " ++ toString row

/-- The record built from a 13-field row (`dict(zip(BLAST_COLUMNS, line))`).
The fallback arm is unreachable behind the column-count check. -/
def hitOfRow (row : List String) : Hit :=
  match row with
  | [q, s, p, l, mi, g, qs, qe, ss, se, ev, bs, sq] =>
    ⟨q, s, p, l, mi, g, qs, qe, ss, se, ev, bs, sq⟩
  | _ => ⟨"", "", "", "", "", "", "", "", "", "", "", "", ""⟩

/-- Model of `load_hits`: walk the input lines in order, skip empty lines, fail
on the first row whose field count differs from 13, and otherwise return
the records in file order. -/
def load_hits : List String → Except String (List Hit)
  | [] => .ok []
  | ln :: rest =>
    let row := pyCsvRow ln
    if row.isEmpty then load_hits rest
    else if row.length ≠ BLAST_COLUMNS.length then .error (colsErrorMsg row)
    else (load_hits rest).map (fun hits => hitOfRow row :: hits)

/-! ## Deduplication Selector (`should_replace`, `select_unique_hits`) -/

/-- Model of `should_replace`: decide whether `candidate` replaces `existing` for
the same subject, by the length / bitscore / e-value cascade with
last-write-wins on a full tie. -/
def should_replace (existing candidate : Hit) : Bool :=
  let exist_len := pyInt existing.length
  let cand_len := pyInt candidate.length
  if cand_len > exist_len then true
  else if cand_len < exist_len then false
  else
    let exist_bits := pyFloat existing.bitscore
    let cand_bits := pyFloat candidate.bitscore
    if cand_bits > exist_bits then true
    else if cand_bits < exist_bits then false
    else
      let exist_eval := pyFloat existing.evalue
      let cand_eval := pyFloat candidate.evalue
      if cand_eval < exist_eval then true
      else if cand_eval > exist_eval then false
      else true

/-- Model of `unique.get(subject)`: first value stored under the key. -/
def findA : List (String × Hit) → String → Option Hit
  | [], _ => none
  | (k, v) :: rest, key => if k = key then some v else findA rest key

/-- Model of `unique[subject] = hit` on a Python 3.7+ `dict`: replace the value
in place when the key is present, otherwise append the new pair at the
end (insertion order is preserved). -/
def setA : List (String × Hit) → String → Hit → List (String × Hit)
  | [], key, v => [(key, v)]
  | (k, v0) :: rest, key, v =>
    if k = key then (k, v) :: rest else (k, v0) :: setA rest key v

/-- The `for hit in hits` loop of `select_unique_hits`, with the dict
modelled as an insertion-ordered association list. -/
def select_loop : List (String × Hit) → List Hit → List (String × Hit)
  | acc, [] => acc
  | acc, hit :: rest =>
    match findA acc hit.sseqid with
    | none => select_loop (setA acc hit.sseqid hit) rest
    | some current =>
      if should_replace current hit then select_loop (setA acc hit.sseqid hit) rest
      else select_loop acc rest

/-- Model of `select_unique_hits`: one winner per subject, in first-insertion
order of the keys (`list(unique.values())`). -/
def select_unique_hits (hits : List Hit) : List Hit :=
  (select_loop [] hits).map Prod.snd

/-- Specification-side definition of "first-seen-group order": the
subject identifiers of the input with every later duplicate removed,
`seen` holding the identifiers already encountered. -/
def firstSeenOrder (seen : List String) : List String → List String
  | [] => []
  | k :: ks =>
    if k ∈ seen then firstSeenOrder seen ks
    else k :: firstSeenOrder (seen ++ [k]) ks

/-! ## `main` of collect_unique_hits.py -/

/-- Observable outcome of one run of `main`: a raised error, a reported
skip with no output files written, or both artifacts written plus the
`[ok]` report. -/
inductive MainOutcome where
  | fatal : String → MainOutcome
  | skip : String → MainOutcome
  | done : List String → List (List String) → String → MainOutcome
deriving DecidableEq

/-! ## Output Emitter (`write_fasta`, `write_table`)

`write_fasta` wraps each winner's `sseq` with `textwrap.wrap(seq, width=80)`.
The wrapper is modelled after CPython's `TextWrapper` with its default
options: whitespace characters are normalised to spaces
(`replace_whitespace`; tab-stop expansion is not modelled — fields of a
tab-separated input cannot contain tabs), the text is split into maximal
runs of spaces / non-spaces, and the runs are packed greedily into lines
of at most `width` characters, dropping whitespace runs at line breaks
(`drop_whitespace`) and chunking over-long words (`break_long_words`).
The hyphen splitting of `break_on_hyphens` is not modelled; it moves
line boundaries for hyphenated text but never drops characters, so it
does not affect the line-width bound or the concatenation value. -/

/-- Whitespace characters recognised by Python's `str.strip` / `textwrap`
(the ASCII ones; sequencing data is ASCII). -/
def isPyWs (c : Char) : Bool :=
  c == ' ' || c == '\t' || c == '\n' || c == '\r' || c == '\x0b' || c == '\x0c'

/-- Model of `replace_whitespace`: each whitespace character becomes a
space. -/
def normWs (s : String) : List Char :=
  s.data.map (fun c => if isPyWs c then ' ' else c)

/-- One step of splitting into maximal runs of spaces / non-spaces. -/
def runsAux (c : Char) : List (List Char) → List (List Char)
  | [] => [[c]]
  | t :: ts =>
    match t with
    | [] => [c] :: ts
    | d :: _ => if (c == ' ') == (d == ' ') then (c :: t) :: ts else [c] :: t :: ts

/-- Split a normalised text into maximal runs of spaces / non-spaces
(the chunk list of `TextWrapper._split`, without hyphen splitting). -/
def splitRuns (cs : List Char) : List (List Char) := cs.foldr runsAux []

/-- A chunk consisting only of whitespace (`chunk.strip() == ''`). -/
def isWsChunk (c : List Char) : Bool := c.all (· == ' ')

/-- The inner greedy loop of `_wrap_chunks`: take chunks while the line
stays within `w`, returning the taken chunks and the remainder. -/
def greedyTake (w : Nat) (curLen : Nat) : List (List Char) → List (List Char) × List (List Char)
  | [] => ([], [])
  | c :: rest =>
    if curLen + c.length ≤ w then
      let p := greedyTake w (curLen + c.length) rest
      (c :: p.1, p.2)
    else ([], c :: rest)

/-- Model of `_handle_long_word`: when the next remaining chunk is longer than
the width, move its first `width - cur_len` characters (at least one
character when the width is below one) onto the current line. -/
def handleLongWord (w : Nat) (taken rem : List (List Char)) :
    List (List Char) × List (List Char) :=
  match rem with
  | r0 :: rrest =>
    if w < r0.length then
      let spaceLeft := if w < 1 then 1 else w - (taken.map List.length).sum
      (taken ++ [r0.take spaceLeft], r0.drop spaceLeft :: rrest)
    else (taken, rem)
  | [] => (taken, [])

/-- The `drop_whitespace` deletion of a trailing all-whitespace chunk of
the current line. -/
def dropTrailWs (cur : List (List Char)) : List (List Char) :=
  match cur.getLast? with
  | some lastc => if isWsChunk lastc then cur.dropLast else cur
  | none => cur

/-- The outer loop of `_wrap_chunks`.  `hasLines` records whether a line
has already been emitted (Python's `lines` being nonempty).  The fuel
argument only forces termination; `pyWrap` supplies enough fuel that it
is never exhausted. -/
def pyWrapGo (w : Nat) : Nat → Bool → List (List Char) → List (List Char)
  | 0, _, _ => []
  | _ + 1, _, [] => []
  | fuel + 1, hasLines, c0 :: rest =>
    if hasLines && isWsChunk c0 then pyWrapGo w fuel hasLines rest
    else
      let g := greedyTake w 0 (c0 :: rest)
      let hl := handleLongWord w g.1 g.2
      let cur2 := dropTrailWs hl.1
      if cur2.isEmpty then pyWrapGo w fuel hasLines hl.2
      else cur2.flatten :: pyWrapGo w fuel true hl.2

/-- Fuel bound: total characters plus number of chunks. -/
def wrapMeasure (chunks : List (List Char)) : Nat :=
  (chunks.map List.length).sum + chunks.length

/-- Model of `textwrap.wrap(s, width=w)` (defaults, hyphen splitting
omitted as described above). -/
def pyWrap (w : Nat) (s : String) : List String :=
  let chunks := splitRuns (normWs s)
  (pyWrapGo w (2 * wrapMeasure chunks + 2) false chunks).map String.mk

/-- The FASTA header text built for the winner at 1-based index `idx`
(`f"hit{idx}|query:...|subject:...|pident:...|bitscore:..."`). -/
def fasta_header (idx : Nat) (hit : Hit) : String :=
  "hit" ++ toString idx ++ "|query:" ++ hit.qseqid ++ "|subject:" ++ hit.sseqid ++
    "|pident:" ++ hit.pident ++ "|bitscore:" ++ hit.bitscore

/-- The `for idx, hit in enumerate(records, start=1)` loop of
`write_fasta`: header line then wrapped sequence lines, per record. -/
def write_fasta_go (idx : Nat) : List Hit → List String
  | [] => []
  | hit :: rest =>
    ((">" ++ fasta_header idx hit) :: pyWrap 80 hit.sseq) ++ write_fasta_go (idx + 1) rest

/-- Model of `write_fasta`: the lines written to the FASTA output file. -/
def write_fasta (records : List Hit) : List String := write_fasta_go 1 records

/-- One data row of the summary table: `hit<idx>` followed by the 13
original fields in schema order. -/
def table_row (idx : Nat) (hit : Hit) : List String :=
  ("hit" ++ toString idx) ::
    [hit.qseqid, hit.sseqid, hit.pident, hit.length, hit.mismatch, hit.gapopen,
     hit.qstart, hit.qend, hit.sstart, hit.send, hit.evalue, hit.bitscore, hit.sseq]

/-- The data-row loop of `write_table`. -/
def write_table_go (idx : Nat) : List Hit → List (List String)
  | [] => []
  | hit :: rest => table_row idx hit :: write_table_go (idx + 1) rest

/-- Model of `write_table`: the rows written to the TSV output file (header row
first; `csv.writer` quoting is not modelled — it only triggers on fields
containing the delimiter or quote characters). -/
def write_table (records : List Hit) : List (List String) :=
  ("unique_id" :: BLAST_COLUMNS) :: write_table_go 1 records

/-- Model of `main`: parse, select, and either skip (printing why, writing no
files) or write both artifacts and report.  The `blast_tsv.exists()`
pre-check is outside the shallow embedding (the input lines are given). -/
def pyMain (blast_tsv unique_fasta unique_table : String) (lines : List String) : MainOutcome :=
  match load_hits lines with
  | .error e => .fatal e
  | .ok hits =>
    if hits.isEmpty then
      .skip ("[skip] No hits found in " ++ blast_tsv ++ "; skipping unique outputs.")
    else
      let unique_hits := select_unique_hits hits
      if unique_hits.isEmpty then
        .skip ("[skip] No unique hits found in " ++ blast_tsv ++ "; skipping unique outputs.")
      else
        .done (write_fasta unique_hits) (write_table unique_hits)
          ("[ok] Unique hits: " ++ toString unique_hits.length ++
            " (FASTA: " ++ unique_fasta ++ ", TSV: " ++ unique_table ++ ")")

/-! ## FASTQ Stream Reader (`iter_fastq_records` of prepare_fastas.py)

The gzip byte stream is modelled as the list of raw lines `readline`
returns, each still carrying its trailing newline (so a blank line is
`"\n"`, which is truthy); `readline` at end of stream returns the empty
string, modelled by running off the end of the list. -/

/-- Python `str.strip()` (ASCII whitespace). -/
def pyStrip (s : String) : String :=
  String.mk (((s.data.dropWhile isPyWs).reverse.dropWhile isPyWs).reverse)

/-- One step of Python `str.split()` (split on whitespace runs,
dropping empty tokens). -/
def wsSplitAux (c : Char) : List (List Char) → List (List Char)
  | [] => if isPyWs c then [] else [[c]]
  | t :: ts => if isPyWs c then [] :: t :: ts else (c :: t) :: ts

/-- Python `str.split()` on a character list. -/
def wsTokens (cs : List Char) : List (List Char) :=
  (cs.foldr wsSplitAux []).filter (fun t => ¬ t.isEmpty)

/-- Error text of the mid-record truncation check. -/
def framingErr : String := "FASTQ file ended unexpectedly; check input integrity."

/-- Model of `iter_fastq_records`: consume the stream four lines at a time and
yield `(identifier, sequence)` pairs.  The result is the list of pairs
the generator yields before it stops, together with `none` for a clean
end of stream or `some msg` for the exception that terminated it
(`ValueError` texts, or Python's `IndexError` text
`"list index out of range"` raised by `split()[0]` on a header with no
token after the marker). -/
def iter_fastq_records : List String → List (String × String) × Option String
  | [] => ([], none)
  | [_] => ([], some framingErr)
  | [_, _] => ([], some framingErr)
  | [_, _, _] => ([], some framingErr)
  | header :: seq :: plus :: qual :: rest =>
    if seq = "" || plus = "" || qual = "" then ([], some framingErr)
    else
      let header_str := pyStrip header
      match header_str.data with
      | '@' :: tl =>
        (match wsTokens tl with
         | [] => ([], some "list index out of range")
         | tok :: _ =>
           let r := iter_fastq_records rest
           ((String.mk tok, pyStrip seq) :: r.1, r.2))
      | _ => ([], some ("Malformed FASTQ header: " ++ header_str))

/-! ## Helpers used only in statements and proofs -/

/-- Concatenation of a list of strings (used to state that the wrapped
sequence lines reassemble to the original sequence). -/
def strJoin (l : List String) : String := l.foldr (· ++ ·) ""

/-- Greedy 80-character chunking of a character list; `pyWrap 80`
coincides with it on whitespace-free text. -/
def chunks80 (cs : List Char) : List (List Char) :=
  if h : cs = [] then [] else cs.take 80 :: chunks80 (cs.drop 80)
termination_by cs.length
decreasing_by
  have hpos : 0 < cs.length := List.length_pos.mpr h
  simp only [List.length_drop]
  omega


/-! ## Lemmas about the association-list dict -/

/-- Keys of the dict, in insertion order. -/
def keysOf (acc : List (String × Hit)) : List String := acc.map Prod.fst

theorem findA_eq_none_iff (acc : List (String × Hit)) (k : String) :
    findA acc k = none ↔ k ∉ keysOf acc := by
  induction acc with
  | nil => simp [findA, keysOf]
  | cons p rest ih =>
    obtain ⟨k0, v0⟩ := p
    by_cases hk : k0 = k
    · subst hk; simp [findA, keysOf]
    · simp only [findA, keysOf, List.map_cons, List.mem_cons, if_neg hk]
      rw [ih]
      simp only [keysOf]
      constructor
      · intro h hc
        rcases hc with hc | hc
        · exact hk hc.symm
        · exact h hc
      · intro h hc
        exact h (Or.inr hc)

theorem setA_keys_of_mem (acc : List (String × Hit)) (k : String) (v : Hit)
    (h : k ∈ keysOf acc) : keysOf (setA acc k v) = keysOf acc := by
  induction acc with
  | nil => simp [keysOf] at h
  | cons p rest ih =>
    obtain ⟨k0, v0⟩ := p
    by_cases hk : k0 = k
    · subst hk; simp [setA, keysOf]
    · have hmem : k ∈ keysOf rest := by
        simp [keysOf] at h
        rcases h with h | h
        · exact absurd h.symm hk
        · simpa [keysOf] using h
      have h2 := ih hmem
      simp only [keysOf] at h2
      simp [setA, keysOf, hk, h2]

theorem setA_of_not_mem (acc : List (String × Hit)) (k : String) (v : Hit)
    (h : k ∉ keysOf acc) : setA acc k v = acc ++ [(k, v)] := by
  induction acc with
  | nil => simp [setA]
  | cons p rest ih =>
    obtain ⟨k0, v0⟩ := p
    have hk : k0 ≠ k := by
      intro hkk; exact h (by simp [keysOf, hkk])
    have hrest : k ∉ keysOf rest := by
      intro hm; exact h (by simp [keysOf] at hm ⊢; exact Or.inr hm)
    simp [setA, hk, ih hrest]

theorem mem_setA (acc : List (String × Hit)) (k : String) (v : Hit) (p : String × Hit)
    (h : p ∈ setA acc k v) : p ∈ acc ∨ p = (k, v) := by
  induction acc with
  | nil => simp [setA] at h; simp [h]
  | cons q rest ih =>
    obtain ⟨k0, v0⟩ := q
    by_cases hk : k0 = k
    · subst hk
      simp [setA] at h
      rcases h with h | h
      · exact Or.inr (by simp [h])
      · exact Or.inl (by simp [h])
    · simp [setA, hk] at h
      rcases h with h | h
      · exact Or.inl (by simp [h])
      · rcases ih h with h2 | h2
        · exact Or.inl (by simp [h2])
        · exact Or.inr h2

/-! ## Lemmas about the selection loop -/

theorem select_loop_keys (hits : List Hit) :
    ∀ acc, keysOf (select_loop acc hits) =
      keysOf acc ++ firstSeenOrder (keysOf acc) (hits.map Hit.sseqid) := by
  induction hits with
  | nil => intro acc; simp [select_loop, firstSeenOrder]
  | cons hit rest ih =>
    intro acc
    simp only [select_loop, List.map_cons, firstSeenOrder]
    cases hfind : findA acc hit.sseqid with
    | none =>
      have hnm : hit.sseqid ∉ keysOf acc := (findA_eq_none_iff _ _).mp hfind
      rw [if_neg hnm, setA_of_not_mem _ _ _ hnm, ih]
      have : keysOf (acc ++ [(hit.sseqid, hit)]) = keysOf acc ++ [hit.sseqid] := by
        simp [keysOf]
      rw [this, List.append_assoc]
      rfl
    | some cur =>
      have hm : hit.sseqid ∈ keysOf acc := by
        by_contra hn
        rw [← findA_eq_none_iff] at hn
        rw [hfind] at hn
        exact Option.noConfusion hn
      rw [if_pos hm]
      by_cases hrep : should_replace cur hit
      · simp only [if_pos hrep]
        rw [ih, setA_keys_of_mem _ _ _ hm]
      · simp only [if_neg hrep]
        exact ih acc

theorem select_loop_mem (hits : List Hit) :
    ∀ acc p, p ∈ select_loop acc hits → p ∈ acc ∨ p.2 ∈ hits := by
  induction hits with
  | nil => intro acc p h; exact Or.inl h
  | cons hit rest ih =>
    intro acc p h
    simp only [select_loop] at h
    have step : ∀ q : String × Hit, p ∈ select_loop (setA acc q.1 q.2) rest →
        q.2 = hit → p ∈ acc ∨ p.2 ∈ hit :: rest := by
      intro q hq hqh
      rcases ih _ p hq with h2 | h2
      · rcases mem_setA _ _ _ _ h2 with h3 | h3
        · exact Or.inl h3
        · right; rw [h3]; simp [hqh]
      · right; simp [h2]
    cases hfind : findA acc hit.sseqid with
    | none =>
      simp only [hfind] at h
      exact step (hit.sseqid, hit) h rfl
    | some cur =>
      simp only [hfind] at h
      by_cases hrep : should_replace cur hit
      · rw [if_pos hrep] at h
        exact step (hit.sseqid, hit) h rfl
      · rw [if_neg hrep] at h
        rcases ih _ p h with h2 | h2
        · exact Or.inl h2
        · right; simp [h2]

theorem select_loop_kv (hits : List Hit) :
    ∀ acc, (∀ p ∈ acc, (Prod.snd p).sseqid = p.1) →
      ∀ p ∈ select_loop acc hits, (Prod.snd p).sseqid = p.1 := by
  induction hits with
  | nil => intro acc hacc p hp; exact hacc p hp
  | cons hit rest ih =>
    intro acc hacc p hp
    simp only [select_loop] at hp
    have hset : ∀ q ∈ setA acc hit.sseqid hit, (Prod.snd q).sseqid = q.1 := by
      intro q hq
      rcases mem_setA _ _ _ _ hq with h | h
      · exact hacc q h
      · rw [h]
    cases hfind : findA acc hit.sseqid with
    | none =>
      simp only [hfind] at hp
      exact ih _ hset p hp
    | some cur =>
      simp only [hfind] at hp
      by_cases hrep : should_replace cur hit
      · rw [if_pos hrep] at hp
        exact ih _ hset p hp
      · rw [if_neg hrep] at hp
        exact ih _ hacc p hp

/-! ## Lemmas about first-seen order -/

theorem fso_mem (ks : List String) :
    ∀ seen x, x ∈ firstSeenOrder seen ks ↔ x ∈ ks ∧ x ∉ seen := by
  induction ks with
  | nil => intro seen x; simp [firstSeenOrder]
  | cons k kt ih =>
    intro seen x
    simp only [firstSeenOrder]
    by_cases hk : k ∈ seen
    · rw [if_pos hk, ih]
      constructor
      · rintro ⟨h1, h2⟩
        exact ⟨List.mem_cons_of_mem _ h1, h2⟩
      · rintro ⟨h1, h2⟩
        rcases List.mem_cons.mp h1 with rfl | h1
        · exact absurd hk h2
        · exact ⟨h1, h2⟩
    · rw [if_neg hk]
      constructor
      · intro hmem
        rcases List.mem_cons.mp hmem with rfl | hmem2
        · exact ⟨List.mem_cons_self _ _, hk⟩
        · have h3 := (ih _ x).mp hmem2
          exact ⟨List.mem_cons_of_mem _ h3.1, fun hc => h3.2 (List.mem_append_left _ hc)⟩
      · rintro ⟨hmem, hns⟩
        rcases List.mem_cons.mp hmem with rfl | hmem2
        · exact List.mem_cons_self _ _
        · by_cases hxk : x = k
          · subst hxk; exact List.mem_cons_self _ _
          · refine List.mem_cons_of_mem _ ((ih _ x).mpr ⟨hmem2, ?_⟩)
            intro hc
            rcases List.mem_append.mp hc with hc1 | hc1
            · exact hns hc1
            · exact hxk (List.mem_singleton.mp hc1)

theorem fso_nodup (ks : List String) : ∀ seen, (firstSeenOrder seen ks).Nodup := by
  induction ks with
  | nil => intro seen; simp [firstSeenOrder]
  | cons k kt ih =>
    intro seen
    simp only [firstSeenOrder]
    by_cases hk : k ∈ seen
    · rw [if_pos hk]; exact ih seen
    · rw [if_neg hk]
      refine List.nodup_cons.mpr ⟨?_, ih _⟩
      intro hmem
      have := (fso_mem kt _ k).mp hmem
      exact this.2 (by simp)

theorem fso_length_dedup (ks : List String) :
    (firstSeenOrder [] ks).length = ks.dedup.length := by
  have h1 : (firstSeenOrder [] ks).toFinset = ks.dedup.toFinset := by
    ext x
    simp [List.mem_toFinset, fso_mem, List.mem_dedup]
  have h2 := List.toFinset_card_of_nodup (fso_nodup ks [])
  have h3 := List.toFinset_card_of_nodup ks.nodup_dedup
  rw [← h2, ← h3, h1]

/-- Shared helper: the winner list of a nonempty input is nonempty. -/
theorem select_unique_ne_nil (hits : List Hit) (h : hits ≠ []) :
    select_unique_hits hits ≠ [] := by
  obtain ⟨hit, rest, rfl⟩ := List.exists_cons_of_ne_nil h
  intro hcontra
  have hnil : select_loop [] (hit :: rest) = [] := by
    simp only [select_unique_hits] at hcontra
    exact List.map_eq_nil_iff.mp hcontra
  have hkeys := select_loop_keys (hit :: rest) []
  rw [hnil] at hkeys
  simp [keysOf, firstSeenOrder] at hkeys

/-! ## Sample records used by witnesses -/

/-- A concrete record (subject `S1`, alignment length 100). -/
def sampleHitA : Hit :=
  ⟨"q1", "S1", "90.0", "100", "0", "0", "1", "100", "1", "100", "1e-10", "50.0", "ACGT"⟩

/-- A concrete record for the same subject with a longer alignment but
worse bitscore and e-value. -/
def sampleHitB : Hit :=
  ⟨"q2", "S1", "85.0", "120", "0", "0", "1", "120", "1", "120", "1e-5", "40.0", "GGTT"⟩

/-- A concrete record for a second subject. -/
def sampleHitC : Hit :=
  ⟨"q1", "S2", "95.0", "100", "0", "0", "1", "100", "1", "100", "1e-20", "60.0", "TTAA"⟩

/-! ## C1: the replacement cascade -/

/-- C1: for two records of the same subject, `should_replace` follows the
strict cascade — a longer candidate always wins and a shorter one always
loses regardless of bitscore and e-value; on equal lengths the higher
bitscore wins; on equal length and bitscore the lower e-value wins; and
when length, bitscore and e-value are all equal the later candidate
replaces the incumbent. -/
theorem should_replace_cascade (e c : Hit) (hsub : e.sseqid = c.sseqid) :
    (pyInt c.length > pyInt e.length → should_replace e c = true) ∧
    (pyInt c.length < pyInt e.length → should_replace e c = false) ∧
    (pyInt c.length = pyInt e.length →
      (pyFloat c.bitscore > pyFloat e.bitscore → should_replace e c = true) ∧
      (pyFloat c.bitscore < pyFloat e.bitscore → should_replace e c = false) ∧
      (pyFloat c.bitscore = pyFloat e.bitscore →
        (pyFloat c.evalue < pyFloat e.evalue → should_replace e c = true) ∧
        (pyFloat c.evalue > pyFloat e.evalue → should_replace e c = false) ∧
        (pyFloat c.evalue = pyFloat e.evalue → should_replace e c = true))) := by
  refine ⟨fun h => ?_, fun h => ?_,
    fun hl => ⟨fun h => ?_, fun h => ?_,
      fun hb => ⟨fun h => ?_, fun h => ?_, fun he => ?_⟩⟩⟩ <;>
  · simp only [should_replace]
    split_ifs <;> first | rfl | omega | linarith

/-- Witness for C1: a longer candidate for the same subject replaces the
incumbent even though its bitscore is lower and its e-value larger. -/
theorem should_replace_cascade_witness : should_replace sampleHitA sampleHitB = true :=
  (should_replace_cascade sampleHitA sampleHitB rfl).1 (by decide)

/-! ## C2: at most one winner per subject, one per distinct subject -/

/-- C2: the winner list contains at most one record per subject
identifier, and its length is the number of distinct subject identifiers
in the input. -/
theorem select_unique_per_subject (hits : List Hit) :
    ((select_unique_hits hits).map Hit.sseqid).Nodup ∧
    (select_unique_hits hits).length = ((hits.map Hit.sseqid).dedup).length := by
  have hkv := select_loop_kv hits [] (by intro p hp; simp at hp)
  have hmap : (select_unique_hits hits).map Hit.sseqid = keysOf (select_loop [] hits) := by
    simp only [select_unique_hits, keysOf, List.map_map]
    exact List.map_congr_left (fun p hp => hkv p hp)
  have hkeys := select_loop_keys hits []
  simp only [keysOf, List.map_nil, List.nil_append] at hkeys
  have hkeys2 : (select_unique_hits hits).map Hit.sseqid =
      firstSeenOrder [] (hits.map Hit.sseqid) := by
    rw [hmap]; simpa [keysOf] using hkeys
  constructor
  · rw [hkeys2]; exact fso_nodup _ _
  · have hlen : (select_unique_hits hits).length =
        ((select_unique_hits hits).map Hit.sseqid).length := by simp
    rw [hlen, hkeys2, fso_length_dedup]

/-! ## C4: winners appear in first-seen-group order -/

/-- C4: the subjects of the winner list are exactly the input's subject
identifiers in the order each was first encountered, independent of
which record wins its group. -/
theorem select_unique_first_seen_order (hits : List Hit) :
    (select_unique_hits hits).map Hit.sseqid = firstSeenOrder [] (hits.map Hit.sseqid) := by
  have hkv := select_loop_kv hits [] (by intro p hp; simp at hp)
  have hmap : (select_unique_hits hits).map Hit.sseqid = keysOf (select_loop [] hits) := by
    simp only [select_unique_hits, keysOf, List.map_map]
    exact List.map_congr_left (fun p hp => hkv p hp)
  have hkeys := select_loop_keys hits []
  simp only [keysOf, List.map_nil, List.nil_append] at hkeys
  rw [hmap]
  simpa [keysOf] using hkeys

/-! ## C9: empty parse or empty winner set is a reported skip -/

/-- C9: when the parsed record list is empty, or the winner list comes
out empty, `main` skips: it writes neither artifact, reports the skip,
and terminates without an error. -/
theorem main_skip_conditions (p f t : String) (lines : List String) (hits : List Hit)
    (hload : load_hits lines = Except.ok hits)
    (hzero : hits = [] ∨ select_unique_hits hits = []) :
    ∃ m, pyMain p f t lines = MainOutcome.skip m ∧
      (m = "[skip] No hits found in " ++ p ++ "; skipping unique outputs." ∨
       m = "[skip] No unique hits found in " ++ p ++ "; skipping unique outputs.") := by
  by_cases hh : hits = []
  · subst hh
    exact ⟨_, by simp [pyMain, hload], Or.inl rfl⟩
  · have hz : select_unique_hits hits = [] := hzero.resolve_left hh
    refine ⟨_, ?_, Or.inr rfl⟩
    simp [pyMain, hload, hh, hz]

/-- Witness for C9: the empty input parses to zero records and `main`
reports the no-hits skip. -/
theorem main_skip_conditions_witness :
    ∃ m, pyMain "hits.tsv" "u.fasta" "u.tsv" [] = MainOutcome.skip m ∧
      (m = "[skip] No hits found in " ++ "hits.tsv" ++ "; skipping unique outputs." ∨
       m = "[skip] No unique hits found in " ++ "hits.tsv" ++ "; skipping unique outputs.") :=
  main_skip_conditions "hits.tsv" "u.fasta" "u.tsv" [] [] rfl (Or.inl rfl)

/-! ## C10: a nonempty input always yields winners -/

/-- C10: a nonempty record list always yields a nonempty winner list of
input records, so the zero-winners skip branch of `main` is unreachable:
any skip outcome carries the no-hits message. -/
theorem select_unique_nonempty_of_nonempty (hits : List Hit) (hne : hits ≠ []) :
    select_unique_hits hits ≠ [] ∧
    (∀ w ∈ select_unique_hits hits, w ∈ hits) ∧
    (∀ p f t lines m, pyMain p f t lines = MainOutcome.skip m →
      m = "[skip] No hits found in " ++ p ++ "; skipping unique outputs.") := by
  refine ⟨select_unique_ne_nil hits hne, ?_, ?_⟩
  · intro w hw
    simp only [select_unique_hits, List.mem_map] at hw
    obtain ⟨q, hq, rfl⟩ := hw
    rcases select_loop_mem hits [] q hq with h | h
    · simp at h
    · exact h
  · intro p f t lines m hm
    simp only [pyMain] at hm
    cases hload : load_hits lines with
    | error e => simp only [hload] at hm; exact absurd hm (by simp)
    | ok hits2 =>
      simp only [hload] at hm
      by_cases hh : hits2.isEmpty
      · rw [if_pos hh] at hm
        exact (MainOutcome.skip.injEq _ _).mp hm.symm |>.symm ▸ rfl
      · rw [if_neg hh] at hm
        have hne2 : hits2 ≠ [] := fun hc => hh (by simp [hc])
        have hsel := select_unique_ne_nil hits2 hne2
        rw [if_neg (by simpa [List.isEmpty_iff] using hsel)] at hm
        exact absurd hm (by simp)

/-- Witness for C10: one record in, one winner out, and that winner is
the input record. -/
theorem select_unique_nonempty_witness :
    select_unique_hits [sampleHitA] ≠ [] ∧
    (∀ w ∈ select_unique_hits [sampleHitA], w ∈ [sampleHitA]) ∧
    (∀ p f t lines m, pyMain p f t lines = MainOutcome.skip m →
      m = "[skip] No hits found in " ++ p ++ "; skipping unique outputs.") :=
  select_unique_nonempty_of_nonempty [sampleHitA] (by simp)

/-! ## C3: record-parser schema enforcement -/

/-- Shared helper: on well-formed input, `load_hits` returns one record
per non-empty line, in file order. -/
theorem load_hits_ok (lines : List String)
    (hwf : ∀ ln ∈ lines, pyCsvRow ln = [] ∨ (pyCsvRow ln).length = 13) :
    load_hits lines =
      Except.ok ((lines.filter (fun ln => !(pyCsvRow ln).isEmpty)).map
        (fun ln => hitOfRow (pyCsvRow ln))) := by
  induction lines with
  | nil => rfl
  | cons ln rest ih =>
    have hrest : ∀ l ∈ rest, pyCsvRow l = [] ∨ (pyCsvRow l).length = 13 :=
      fun l hl => hwf l (List.mem_cons_of_mem _ hl)
    rcases hwf ln (List.mem_cons_self _ _) with hnil | h13
    · have hemp : (pyCsvRow ln).isEmpty = true := by simp [hnil]
      simp only [load_hits, hemp, if_true, List.filter_cons, Bool.not_true,
        Bool.false_eq_true, if_false, ih hrest]
    · have hemp : (pyCsvRow ln).isEmpty = false := by
        rcases hcs : pyCsvRow ln with _ | ⟨a, t⟩
        · rw [hcs] at h13; simp at h13
        · rfl
      have hlen : ¬ (pyCsvRow ln).length ≠ BLAST_COLUMNS.length := by
        simp [h13, BLAST_COLUMNS]
      simp only [load_hits, hemp, Bool.false_eq_true, if_false, if_neg hlen,
        ih hrest, Except.map, List.filter_cons, Bool.not_false, if_true, List.map_cons]

/-- Shared helper: any non-empty line with a field count other than 13
makes the whole parse fail, and the error carries that line's fields. -/
theorem load_hits_error (lines : List String)
    (hbad : ∃ ln ∈ lines, ¬ (pyCsvRow ln).isEmpty ∧ (pyCsvRow ln).length ≠ 13) :
    ∃ bad ∈ lines, ¬ (pyCsvRow bad).isEmpty ∧ (pyCsvRow bad).length ≠ 13 ∧
      load_hits lines = Except.error (colsErrorMsg (pyCsvRow bad)) := by
  induction lines with
  | nil => simp at hbad
  | cons ln rest ih =>
    by_cases hhead : ¬ (pyCsvRow ln).isEmpty ∧ (pyCsvRow ln).length ≠ 13
    · refine ⟨ln, List.mem_cons_self _ _, hhead.1, hhead.2, ?_⟩
      have hemp : (pyCsvRow ln).isEmpty = false := by
        cases hv : (pyCsvRow ln).isEmpty
        · rfl
        · exact absurd hv hhead.1
      have hlen : (pyCsvRow ln).length ≠ BLAST_COLUMNS.length := by
        have : BLAST_COLUMNS.length = 13 := rfl
        rw [this]; exact hhead.2
      simp only [load_hits, hemp, Bool.false_eq_true, if_false, if_pos hlen]
    · have hrest : ∃ l ∈ rest, ¬ (pyCsvRow l).isEmpty ∧ (pyCsvRow l).length ≠ 13 := by
        obtain ⟨l, hl, hprop⟩ := hbad
        rcases List.mem_cons.mp hl with rfl | hl2
        · exact absurd hprop hhead
        · exact ⟨l, hl2, hprop⟩
      obtain ⟨bad, hmem, h1, h2, heq⟩ := ih hrest
      refine ⟨bad, List.mem_cons_of_mem _ hmem, h1, h2, ?_⟩
      by_cases hemp : (pyCsvRow ln).isEmpty
      · simp only [load_hits, hemp, if_true, heq]
      · have h13 : (pyCsvRow ln).length = 13 := by
          by_contra hne
          exact hhead ⟨hemp, hne⟩
        have hemp2 : (pyCsvRow ln).isEmpty = false := by
          cases hv : (pyCsvRow ln).isEmpty
          · rfl
          · exact absurd hv hemp
        have hlen : ¬ (pyCsvRow ln).length ≠ BLAST_COLUMNS.length := by
          simp [h13, BLAST_COLUMNS]
        simp only [load_hits, hemp2, Bool.false_eq_true, if_false, if_neg hlen, heq,
          Except.map]

/-- C3: a well-formed input (every non-empty line has 13 fields) parses
to one record per non-empty line in file order, the output length being
the number of non-empty lines; an input with any other field count on a
non-empty line fails the whole parse with an error carrying the
offending line's fields, producing no partial result. -/
theorem load_hits_schema (lines : List String) :
    ((∀ ln ∈ lines, pyCsvRow ln = [] ∨ (pyCsvRow ln).length = 13) →
      load_hits lines =
        Except.ok ((lines.filter (fun ln => !(pyCsvRow ln).isEmpty)).map
          (fun ln => hitOfRow (pyCsvRow ln))) ∧
      ((lines.filter (fun ln => !(pyCsvRow ln).isEmpty)).map
        (fun ln => hitOfRow (pyCsvRow ln))).length =
        (lines.filter (fun ln => !(pyCsvRow ln).isEmpty)).length) ∧
    ((∃ ln ∈ lines, ¬ (pyCsvRow ln).isEmpty ∧ (pyCsvRow ln).length ≠ 13) →
      ∃ bad ∈ lines, ¬ (pyCsvRow bad).isEmpty ∧ (pyCsvRow bad).length ≠ 13 ∧
        load_hits lines = Except.error (colsErrorMsg (pyCsvRow bad))) :=
  ⟨fun hwf => ⟨load_hits_ok lines hwf, List.length_map _ _⟩,
   fun hbad => load_hits_error lines hbad⟩

/-- A well-formed two-line input (one record line, one empty line). -/
def sampleLinesGood : List String :=
  ["q1\tS1\t90.0\t100\t0\t0\t1\t100\t1\t100\t1e-10\t50.0\tACGT", ""]

/-- An input whose second line has 3 fields instead of 13. -/
def sampleLinesBad : List String :=
  ["q1\tS1\t90.0\t100\t0\t0\t1\t100\t1\t100\t1e-10\t50.0\tACGT", "a\tb\tc"]

/-- Witness for C3: the well-formed sample parses to exactly its one
non-empty line, and the malformed sample fails with the offending line's
fields in the error. -/
theorem load_hits_schema_witness :
    (load_hits sampleLinesGood =
      Except.ok ((sampleLinesGood.filter (fun ln => !(pyCsvRow ln).isEmpty)).map
        (fun ln => hitOfRow (pyCsvRow ln))) ∧
      ((sampleLinesGood.filter (fun ln => !(pyCsvRow ln).isEmpty)).map
        (fun ln => hitOfRow (pyCsvRow ln))).length =
        (sampleLinesGood.filter (fun ln => !(pyCsvRow ln).isEmpty)).length) ∧
    (∃ bad ∈ sampleLinesBad, ¬ (pyCsvRow bad).isEmpty ∧ (pyCsvRow bad).length ≠ 13 ∧
      load_hits sampleLinesBad = Except.error (colsErrorMsg (pyCsvRow bad))) :=
  ⟨(load_hits_schema sampleLinesGood).1 (by decide),
   (load_hits_schema sampleLinesBad).2 ⟨"a\tb\tc", by decide, by decide, by decide⟩⟩

/-! ## C7/C8: FASTQ stream framing and header validation -/

/-- Shared helper: a clean (error-free) run of the reader consumes the
stream in whole four-line records. -/
theorem iter_none_dvd : ∀ n (lines : List String), lines.length ≤ n →
    (iter_fastq_records lines).2 = none → 4 ∣ lines.length := by
  intro n
  induction n with
  | zero =>
    intro lines hlen _
    have : lines = [] := List.eq_nil_of_length_eq_zero (Nat.le_zero.mp hlen)
    simp [this]
  | succ n ihn =>
    intro lines hlen hnone
    match lines with
    | [] => simp
    | [a] => simp [iter_fastq_records] at hnone
    | [a, b] => simp [iter_fastq_records] at hnone
    | [a, b, c] => simp [iter_fastq_records] at hnone
    | a :: b :: c :: d :: rest =>
      have hlen2 : rest.length ≤ n := by
        simp only [List.length_cons] at hlen
        omega
      simp only [iter_fastq_records] at hnone
      split at hnone
      · exact absurd hnone (by simp)
      · split at hnone
        · split at hnone
          · exact absurd hnone (by simp)
          · have h4 : (iter_fastq_records rest).2 = none := by simpa using hnone
            have := ihn rest hlen2 h4
            simp only [List.length_cons]
            omega
        · exact absurd hnone (by simp)

/-- C7: an empty read at the header position is the only clean
termination (an error-free run consumes whole quadruplets and the empty
stream ends cleanly), while a stream truncated after one, two or three
lines of a record fails fatally with the framing error and yields no
partial record. -/
theorem fastq_stream_framing :
    iter_fastq_records [] = ([], none) ∧
    (∀ lines : List String, (iter_fastq_records lines).2 = none → 4 ∣ lines.length) ∧
    (∀ h : String, h ≠ "" → iter_fastq_records [h] = ([], some framingErr)) ∧
    (∀ h s : String, h ≠ "" → iter_fastq_records [h, s] = ([], some framingErr)) ∧
    (∀ h s p : String, h ≠ "" → iter_fastq_records [h, s, p] = ([], some framingErr)) := by
  refine ⟨rfl, ?_, ?_, ?_, ?_⟩
  · intro lines hnone
    exact iter_none_dvd lines.length lines le_rfl hnone
  · intro h _; rfl
  · intro h s _; rfl
  · intro h s p _; rfl

/-- Witness for C7: a complete one-record stream ends cleanly in a
multiple of four lines, and the three truncations of a record all
produce the framing error with no yielded records. -/
theorem fastq_stream_framing_witness :
    (4 ∣ (["@r1\n", "ACGT\n", "+\n", "IIII\n"] : List String).length) ∧
    iter_fastq_records ["@r1\n"] = ([], some framingErr) ∧
    iter_fastq_records ["@r1\n", "ACGT\n"] = ([], some framingErr) ∧
    iter_fastq_records ["@r1\n", "ACGT\n", "+\n"] = ([], some framingErr) :=
  ⟨fastq_stream_framing.2.1 ["@r1\n", "ACGT\n", "+\n", "IIII\n"] (by decide),
   fastq_stream_framing.2.2.1 "@r1\n" (by decide),
   fastq_stream_framing.2.2.2.1 "@r1\n" "ACGT\n" (by decide),
   fastq_stream_framing.2.2.2.2 "@r1\n" "ACGT\n" "+\n" (by decide)⟩

/-- Shared helper: every yielded identifier comes from a header line of
the stream that starts with the marker, and is its first
whitespace-delimited token after the marker. -/
theorem iter_yield_header : ∀ n (lines : List String), lines.length ≤ n →
    ∀ p ∈ (iter_fastq_records lines).1,
      ∃ raw ∈ lines, ∃ tl, (pyStrip raw).data = '@' :: tl ∧
        (wsTokens tl).head? = some p.1.data := by
  intro n
  induction n with
  | zero =>
    intro lines hlen p hp
    have : lines = [] := List.eq_nil_of_length_eq_zero (Nat.le_zero.mp hlen)
    rw [this] at hp
    simp [iter_fastq_records] at hp
  | succ n ihn =>
    intro lines hlen p hp
    match lines with
    | [] => simp [iter_fastq_records] at hp
    | [a] => simp [iter_fastq_records] at hp
    | [a, b] => simp [iter_fastq_records] at hp
    | [a, b, c] => simp [iter_fastq_records] at hp
    | a :: b :: c :: d :: rest =>
      have hlen2 : rest.length ≤ n := by
        simp only [List.length_cons] at hlen
        omega
      simp only [iter_fastq_records] at hp
      split at hp
      · simp at hp
      · split at hp
        · rename_i tl heq
          split at hp
          · simp at hp
          · rename_i tok toks htoks
            simp only [List.mem_cons] at hp
            rcases hp with hp | hp
            · refine ⟨a, List.mem_cons_self _ _, tl, heq, ?_⟩
              rw [htoks, hp]
              rfl
            · obtain ⟨raw, hraw, tl2, h1, h2⟩ := ihn rest hlen2 p hp
              exact ⟨raw, by simp [hraw], tl2, h1, h2⟩
        · simp at hp

/-- C8 (amended): a header without the leading marker fails fatally with
the malformed-header error naming the stripped header text, and every
yielded identifier is the first whitespace token after the marker of its
header line; but a header that is just the marker with no following
token instead fails with Python's uncaught IndexError text, which does
not name the header. -/
theorem fastq_header_validation :
    (∀ header seq plus qual rest, seq ≠ "" → plus ≠ "" → qual ≠ "" →
      (pyStrip header).data.head? ≠ some '@' →
      iter_fastq_records (header :: seq :: plus :: qual :: rest) =
        ([], some ("Malformed FASTQ header: " ++ pyStrip header))) ∧
    (∀ lines p, p ∈ (iter_fastq_records lines).1 →
      ∃ raw ∈ lines, ∃ tl, (pyStrip raw).data = '@' :: tl ∧
        (wsTokens tl).head? = some p.1.data) ∧
    (∀ header seq plus qual rest tl, seq ≠ "" → plus ≠ "" → qual ≠ "" →
      (pyStrip header).data = '@' :: tl → wsTokens tl = [] →
      iter_fastq_records (header :: seq :: plus :: qual :: rest) =
        ([], some "list index out of range")) := by
  refine ⟨?_, ?_, ?_⟩
  · intro header seq plus qual rest hs hp hq hhead
    simp only [iter_fastq_records, hs, hp, hq]
    rw [if_neg (by simp [hs, hp, hq])]
    split
    · rename_i tl heq
      rw [heq] at hhead
      simp at hhead
    · rfl
  · intro lines p hp
    exact iter_yield_header lines.length lines le_rfl p hp
  · intro header seq plus qual rest tl hs hp hq hhead htok
    simp only [iter_fastq_records]
    rw [if_neg (by simp [hs, hp, hq])]
    split
    · rename_i tl2 heq
      rw [hhead] at heq
      cases heq
      rw [htok]
    · rename_i hne
      exact absurd hhead (hne tl)

/-- Witness for C8's amended statement: a good header yields its first
token, a marker-less header produces the malformed-header error, and a
bare-marker header produces the IndexError text. -/
theorem fastq_header_validation_witness :
    iter_fastq_records ["r1\n", "ACGT\n", "+\n", "IIII\n"] =
      ([], some ("Malformed FASTQ header: " ++ pyStrip "r1\n")) ∧
    (∃ raw ∈ (["@r1 x\n", "ACGT\n", "+\n", "IIII\n"] : List String), ∃ tl,
      (pyStrip raw).data = '@' :: tl ∧
      (wsTokens tl).head? = some ("r1" : String).data) ∧
    iter_fastq_records ["@\n", "ACGT\n", "+\n", "IIII\n"] =
      ([], some "list index out of range") :=
  ⟨fastq_header_validation.1 "r1\n" "ACGT\n" "+\n" "IIII\n" [] (by decide) (by decide)
      (by decide) (by decide),
   fastq_header_validation.2.1 ["@r1 x\n", "ACGT\n", "+\n", "IIII\n"] ("r1", "ACGT")
      (by decide),
   fastq_header_validation.2.2 "@\n" "ACGT\n" "+\n" "IIII\n" [] [] (by decide) (by decide)
      (by decide) (by decide) (by decide)⟩

/-- Occurrence of `pat` as a contiguous segment of `cs`. -/
def listHas (pat : List Char) : List Char → Bool
  | [] => pat.isEmpty
  | c :: t => ((c :: t).take pat.length == pat) || listHas pat t

/-- Counterexample for C8 as stated: on the header `"@"` (marker present,
no token after it) the reader fails with `"list index out of range"` — an
IndexError, not a malformed-input error, and its message does not name
the offending header text. -/
theorem fastq_header_no_token_counterexample :
    iter_fastq_records ["@\n", "ACGT\n", "+\n", "IIII\n"] =
      ([], some "list index out of range") ∧
    listHas ("@" : String).data ("list index out of range" : String).data = false ∧
    "list index out of range" ≠ "Malformed FASTQ header: " ++ pyStrip "@\n" := by
  decide

/-! ## C5/C6: output emission -/

theorem greedyTake_append : ∀ (l : List (List Char)) (w k : Nat),
    (greedyTake w k l).1 ++ (greedyTake w k l).2 = l := by
  intro l
  induction l with
  | nil => intro w k; rfl
  | cons c rest ih =>
    intro w k
    simp only [greedyTake]
    split
    · simp [ih]
    · rfl

theorem greedyTake_sum : ∀ (l : List (List Char)) (w k : Nat),
    (greedyTake w k l).1 = [] ∨
      k + (((greedyTake w k l).1).map List.length).sum ≤ w := by
  intro l
  induction l with
  | nil => intro w k; exact Or.inl rfl
  | cons c rest ih =>
    intro w k
    simp only [greedyTake]
    split
    · rename_i hle
      rcases ih w (k + c.length) with h | h
      · right
        simp [h]
        omega
      · right
        simp only [List.map_cons, List.sum_cons]
        omega
    · exact Or.inl rfl

/-- The chunks greedily taken with an empty current line total at most
the width. -/
theorem greedyTake_sum0 (l : List (List Char)) (w : Nat) :
    (((greedyTake w 0 l).1).map List.length).sum ≤ w := by
  rcases greedyTake_sum l w 0 with h | h
  · simp [h]
  · omega

theorem handleLongWord_sum (w : Nat) (taken rem : List (List Char))
    (htaken : (taken.map List.length).sum ≤ w) (hw : 1 ≤ w) :
    (((handleLongWord w taken rem).1).map List.length).sum ≤ w := by
  match rem with
  | [] => simpa [handleLongWord] using htaken
  | r0 :: rrest =>
    simp only [handleLongWord]
    split
    · have hw1 : ¬ w < 1 := by omega
      simp only [if_neg hw1, List.map_append, List.sum_append, List.map_cons,
        List.sum_cons, List.map_nil, List.sum_nil, List.length_take]
      omega
    · simpa using htaken

theorem dropTrailWs_sum_le (cur : List (List Char)) :
    (((dropTrailWs cur).map List.length).sum) ≤ ((cur.map List.length).sum) := by
  simp only [dropTrailWs]
  split
  · split
    · exact List.Sublist.sum_le_sum ((List.dropLast_sublist cur).map List.length)
        (fun a _ => Nat.zero_le a)
    · exact le_rfl
  · exact le_rfl

/-- Every line the wrapping loop emits at width 80 has at most 80
characters. -/
theorem pyWrapGo_le : ∀ (fuel : Nat) (b : Bool) (chunks : List (List Char))
    (ln : List Char), ln ∈ pyWrapGo 80 fuel b chunks → ln.length ≤ 80 := by
  intro fuel
  induction fuel with
  | zero =>
    intro b chunks ln hln
    simp [pyWrapGo] at hln
  | succ n ih =>
    intro b chunks ln hln
    match chunks with
    | [] => simp [pyWrapGo] at hln
    | c0 :: rest =>
      simp only [pyWrapGo] at hln
      split at hln
      · exact ih _ _ _ hln
      · split at hln
        · exact ih _ _ _ hln
        · rcases List.mem_cons.mp hln with rfl | hln2
          · have hsum : ((dropTrailWs (handleLongWord 80 (greedyTake 80 0 (c0 :: rest)).1
                (greedyTake 80 0 (c0 :: rest)).2).1).map List.length).sum ≤ 80 := by
              refine le_trans (dropTrailWs_sum_le _) ?_
              exact handleLongWord_sum 80 _ _ (greedyTake_sum0 _ _) (by omega)
            calc ((dropTrailWs (handleLongWord 80 (greedyTake 80 0 (c0 :: rest)).1
                  (greedyTake 80 0 (c0 :: rest)).2).1).flatten).length
                = ((dropTrailWs (handleLongWord 80 (greedyTake 80 0 (c0 :: rest)).1
                  (greedyTake 80 0 (c0 :: rest)).2).1).map List.length).sum := by
                  simp [List.length_flatten]
              _ ≤ 80 := hsum
          · exact ih _ _ _ hln2

theorem chunks80_flatten : ∀ (n : Nat) (cs : List Char), cs.length ≤ n →
    (chunks80 cs).flatten = cs := by
  intro n
  induction n with
  | zero =>
    intro cs hlen
    have hnil : cs = [] := List.eq_nil_of_length_eq_zero (Nat.le_zero.mp hlen)
    rw [hnil, chunks80]
    simp
  | succ n ih =>
    intro cs hlen
    by_cases hnil : cs = []
    · rw [hnil, chunks80]; simp
    · rw [chunks80, dif_neg hnil]
      have hpos : 0 < cs.length := List.length_pos.mpr hnil
      have hdrop : (cs.drop 80).length ≤ n := by
        simp only [List.length_drop]
        omega
      simp only [List.flatten_cons, ih (cs.drop 80) hdrop]
      exact List.take_append_drop 80 cs

theorem chunks80_le : ∀ (n : Nat) (cs : List Char), cs.length ≤ n →
    ∀ l ∈ chunks80 cs, l.length ≤ 80 := by
  intro n
  induction n with
  | zero =>
    intro cs hlen l hl
    have hnil : cs = [] := List.eq_nil_of_length_eq_zero (Nat.le_zero.mp hlen)
    rw [hnil, chunks80] at hl
    simp at hl
  | succ n ih =>
    intro cs hlen l hl
    by_cases hnil : cs = []
    · rw [hnil, chunks80] at hl; simp at hl
    · rw [chunks80, dif_neg hnil] at hl
      have hpos : 0 < cs.length := List.length_pos.mpr hnil
      rcases List.mem_cons.mp hl with rfl | hl2
      · simp [List.length_take]
      · exact ih (cs.drop 80) (by simp only [List.length_drop]; omega) l hl2

/-- A chunk starting with a non-space character is not a whitespace
chunk. -/
theorem isWsChunk_cons_false (c : Char) (cs : List Char) (hc : (c == ' ') = false) :
    isWsChunk (c :: cs) = false := by
  simp only [isWsChunk, List.all_cons, hc, Bool.false_and]

theorem pyWrapGo_nil (w f : Nat) (b : Bool) : pyWrapGo w f b [] = [] := by
  cases f <;> rfl

/-- On a single space-free chunk, the wrapping loop at width 80 is
exactly greedy 80-character chunking. -/
theorem pyWrapGo_word : ∀ (fuel : Nat) (cs : List Char) (b : Bool), cs ≠ [] →
    (∀ c ∈ cs, (c == ' ') = false) → cs.length < fuel →
    pyWrapGo 80 fuel b [cs] = chunks80 cs := by
  intro fuel
  induction fuel with
  | zero => intro cs b hne hns hlen; omega
  | succ n ih =>
    intro cs b hne hns hlen
    obtain ⟨c, t, rfl⟩ := List.exists_cons_of_ne_nil hne
    have hcns : (c == ' ') = false := hns c (List.mem_cons_self _ _)
    have hws : isWsChunk (c :: t) = false := isWsChunk_cons_false c t hcns
    simp only [pyWrapGo, hws, Bool.and_false, Bool.false_eq_true, if_false]
    by_cases hle : (c :: t).length ≤ 80
    · have hcond : 0 + (c :: t).length ≤ 80 := by simpa using hle
      have hcond2 : t.length + 1 ≤ 80 := by simpa using hle
      have hg : greedyTake 80 0 [c :: t] = ([c :: t], []) := by
        simp [greedyTake, hcond]
        omega
      rw [hg]
      have hhl : handleLongWord 80 [c :: t] [] = ([c :: t], []) := rfl
      rw [hhl]
      have hdt : dropTrailWs [c :: t] = [c :: t] := by
        simp [dropTrailWs, hws]
      rw [hdt]
      simp only [List.isEmpty_cons, Bool.false_eq_true, if_false, List.flatten_cons,
        List.flatten_nil, List.append_nil, pyWrapGo_nil]
      rw [chunks80, dif_neg (by simp)]
      have htake : (c :: t).take 80 = c :: t := List.take_of_length_le hle
      have hdrop : (c :: t).drop 80 = [] := List.drop_eq_nil_of_le hle
      rw [htake, hdrop, chunks80]
      simp
    · have hgt : ¬ (0 + (c :: t).length ≤ 80) := by omega
      have hg : greedyTake 80 0 [c :: t] = ([], [c :: t]) := by
        simp only [greedyTake, if_neg hgt]
      rw [hg]
      have hhl : handleLongWord 80 [] [c :: t] =
          ([(c :: t).take 80], (c :: t).drop 80 :: []) := by
        simp only [handleLongWord]
        rw [if_pos (by omega)]
        simp
      rw [hhl]
      have htake80 : (c :: t).take 80 = c :: t.take 79 := List.take_succ_cons
      have hdt : dropTrailWs [(c :: t).take 80] = [(c :: t).take 80] := by
        rw [htake80]
        simp [dropTrailWs, isWsChunk_cons_false c _ hcns]
      rw [hdt]
      have hdne : (c :: t).drop 80 ≠ [] := by
        intro hcon
        have := congrArg List.length hcon
        simp only [List.length_drop, List.length_nil] at this
        omega
      have hdns : ∀ x ∈ (c :: t).drop 80, (x == ' ') = false :=
        fun x hx => hns x (List.drop_subset _ _ hx)
      have hdlen : ((c :: t).drop 80).length < n := by
        simp only [List.length_drop]
        simp only [List.length_cons] at hlen ⊢
        omega
      rw [ih ((c :: t).drop 80) true hdne hdns hdlen]
      simp only [List.isEmpty_cons, Bool.false_eq_true, if_false, List.flatten_cons,
        List.flatten_nil, List.append_nil]
      conv_rhs => rw [chunks80, dif_neg (by simp)]

/-- A nonempty space-free text forms a single run. -/
theorem splitRuns_word : ∀ cs : List Char, cs ≠ [] →
    (∀ c ∈ cs, (c == ' ') = false) → splitRuns cs = [cs] := by
  intro cs
  induction cs with
  | nil => intro hne _; exact absurd rfl hne
  | cons c t ih =>
    intro _ hns
    match t with
    | [] => rfl
    | d :: t2 =>
      have hrec : splitRuns (d :: t2) = [d :: t2] :=
        ih (by simp) (fun x hx => hns x (List.mem_cons_of_mem _ hx))
      have hstep : splitRuns (c :: d :: t2) = runsAux c (splitRuns (d :: t2)) := rfl
      rw [hstep, hrec]
      simp only [runsAux, hns c (List.mem_cons_self _ _),
        hns d (List.mem_cons_of_mem _ (List.mem_cons_self _ _))]
      rfl

/-- Whitespace-free text is unchanged by whitespace normalisation. -/
theorem normWs_id (s : String) (hws : ∀ c ∈ s.data, isPyWs c = false) :
    normWs s = s.data := by
  simp only [normWs]
  conv_rhs => rw [← List.map_id s.data]
  exact List.map_congr_left (fun c hc => by simp [hws c hc])

theorem not_space_of_not_ws (c : Char) (h : isPyWs c = false) : (c == ' ') = false := by
  simp only [isPyWs, Bool.or_eq_false_iff] at h
  exact h.1.1.1.1.1

theorem strJoin_map_mk : ∀ L : List (List Char), strJoin (L.map String.mk) = String.mk L.flatten := by
  intro L
  induction L with
  | nil => rfl
  | cons a t ih =>
    simp only [List.map_cons, strJoin, List.foldr_cons, List.flatten_cons]
    show String.mk a ++ strJoin (t.map String.mk) = String.mk (a ++ t.flatten)
    rw [show strJoin (t.map String.mk) = String.mk t.flatten from ih]
    rfl

/-- For whitespace-free text, `pyWrap 80` is greedy 80-character
chunking. -/
theorem pyWrap_nows (s : String) (hws : ∀ c ∈ s.data, isPyWs c = false) :
    pyWrap 80 s = (chunks80 s.data).map String.mk := by
  by_cases hnil : s.data = []
  · have hs : s = "" := by
      cases s
      simp_all
    subst hs
    have h1 : pyWrap 80 "" = [] := rfl
    have h2 : chunks80 ("" : String).data = [] := by rw [chunks80]; simp
    simp [h1, h2]
  · simp only [pyWrap]
    rw [normWs_id s hws]
    have hns : ∀ c ∈ s.data, (c == ' ') = false :=
      fun c hc => not_space_of_not_ws c (hws c hc)
    rw [splitRuns_word s.data hnil hns]
    rw [pyWrapGo_word _ s.data false hnil hns (by simp [wrapMeasure]; omega)]

/-- The wrapped lines of whitespace-free text reassemble to the
original text. -/
theorem pyWrap_join_nows (s : String) (hws : ∀ c ∈ s.data, isPyWs c = false) :
    strJoin (pyWrap 80 s) = s := by
  rw [pyWrap_nows s hws, strJoin_map_mk, chunks80_flatten s.data.length s.data le_rfl]

/-- Every line of `pyWrap 80` has at most 80 characters. -/
theorem pyWrap_le (s : String) : ∀ ln ∈ pyWrap 80 s, ln.length ≤ 80 := by
  intro ln hln
  simp only [pyWrap, List.mem_map] at hln
  obtain ⟨l, hl, rfl⟩ := hln
  exact pyWrapGo_le _ _ _ l hl

/-- Rewriting `write_fasta` in closed form: per winner, in order, the indexed
header line followed by the wrapped sequence lines. -/
theorem write_fasta_go_eq : ∀ (l : List Hit) (i : Nat),
    write_fasta_go i l =
      ((l.enumFrom i).map
        (fun p => (">" ++ fasta_header p.1 p.2) :: pyWrap 80 p.2.sseq)).flatten := by
  intro l
  induction l with
  | nil => intro i; rfl
  | cons hit rest ih =>
    intro i
    simp only [write_fasta_go, List.enumFrom, List.map_cons, List.flatten_cons, ih (i + 1)]

theorem write_table_go_eq : ∀ (l : List Hit) (i : Nat),
    write_table_go i l = (l.enumFrom i).map (fun p => table_row p.1 p.2) := by
  intro l
  induction l with
  | nil => intro i; rfl
  | cons hit rest ih =>
    intro i
    simp only [write_table_go, List.enumFrom, List.map_cons, ih (i + 1)]

/-- C5 (amended): `write_fasta` emits, per winner in list order, the
header line `>hit<N>|query:..|subject:..|pident:..|bitscore:..` with `N`
the 1-based emission index (`fasta_header`), followed by the
`textwrap`-wrapped sequence lines; every sequence line has at most 80
characters; and for a winner whose `sseq` contains no whitespace the
concatenation of its sequence lines equals `sseq` (wrapping drops
whitespace at line breaks, so this can fail for whitespace-bearing
sequences — see the counterexample). -/
theorem write_fasta_emission (records : List Hit) :
    write_fasta records =
      ((records.enumFrom 1).map
        (fun p => (">" ++ fasta_header p.1 p.2) :: pyWrap 80 p.2.sseq)).flatten ∧
    (∀ s : String, ∀ ln ∈ pyWrap 80 s, ln.length ≤ 80) ∧
    (∀ h ∈ records, (∀ c ∈ h.sseq.data, isPyWs c = false) →
      strJoin (pyWrap 80 h.sseq) = h.sseq) :=
  ⟨write_fasta_go_eq records 1, fun s => pyWrap_le s,
   fun h _ hws => pyWrap_join_nows h.sseq hws⟩

/-- Witness for C5's amended statement: a whitespace-free sequence
satisfies the no-whitespace proviso and its wrapped lines reassemble to
the original. -/
theorem write_fasta_emission_witness :
    (∀ c ∈ ("ACGT" : String).data, isPyWs c = false) ∧
    strJoin (pyWrap 80 sampleHitA.sseq) = sampleHitA.sseq :=
  ⟨by decide,
   (write_fasta_emission [sampleHitA]).2.2 sampleHitA (List.mem_cons_self _ _) (by decide)⟩

/-- A winner whose aligned sequence carries a trailing space. -/
def sampleHitWs : Hit :=
  ⟨"q", "s", "90.0", "3", "0", "0", "1", "3", "1", "3", "0.001", "50.0", "AB "⟩

/-- Counterexample for C5 as stated: for the winner with
`sseq = "AB "`, the wrapper drops the trailing whitespace, so the
concatenation of the emitted sequence lines is `"AB"`, not the original
`sseq`. -/
theorem write_fasta_whitespace_counterexample :
    write_fasta [sampleHitWs] =
      [">hit1|query:q|subject:s|pident:90.0|bitscore:50.0", "AB"] ∧
    strJoin ((write_fasta [sampleHitWs]).drop 1) ≠ sampleHitWs.sseq := by
  decide

/-- Indexing `enumFrom` reads off the element with its shifted index. -/
theorem enumFrom_getElem? : ∀ (l : List Hit) (n i : Nat),
    (l.enumFrom n)[i]? = l[i]?.map (fun a => (n + i, a)) := by
  intro l
  induction l with
  | nil => intro n i; simp [List.enumFrom]
  | cons a t ih =>
    intro n i
    cases i with
    | zero => simp [List.enumFrom]
    | succ j =>
      simp only [List.enumFrom, List.getElem?_cons_succ, ih (n + 1) j]
      have harith : n + 1 + j = n + (j + 1) := by omega
      rw [harith]

/-- C6: both artifacts pair the same 1-based index with the same winner:
the FASTA stream is, in order, the indexed header plus body per winner,
the table is the header row plus the indexed row per winner, the winner
at position `i` carries index `i + 1` in both, the table row's
`unique_id` cell is `hit<i+1>`, and the FASTA header text starts with
`hit<i+1>`. -/
theorem join_key_consistency (records : List Hit) (i : Nat) (hi : i < records.length) :
    write_fasta records =
      ((records.enumFrom 1).map
        (fun p => (">" ++ fasta_header p.1 p.2) :: pyWrap 80 p.2.sseq)).flatten ∧
    write_table records =
      ("unique_id" :: BLAST_COLUMNS) ::
        (records.enumFrom 1).map (fun p => table_row p.1 p.2) ∧
    (records.enumFrom 1)[i]? = some (i + 1, records.get ⟨i, hi⟩) ∧
    (table_row (i + 1) (records.get ⟨i, hi⟩)).head? = some ("hit" ++ toString (i + 1)) ∧
    (∃ restStr, fasta_header (i + 1) (records.get ⟨i, hi⟩) =
      ("hit" ++ toString (i + 1)) ++ restStr) := by
  refine ⟨write_fasta_go_eq records 1, ?_, ?_, rfl, ?_⟩
  · simp only [write_table, write_table_go_eq]
  · rw [enumFrom_getElem? records 1 i, List.getElem?_eq_getElem hi]
    simp [Nat.add_comm]
  · exact ⟨"|query:" ++ (records.get ⟨i, hi⟩).qseqid ++ "|subject:" ++
      (records.get ⟨i, hi⟩).sseqid ++ "|pident:" ++ (records.get ⟨i, hi⟩).pident ++
      "|bitscore:" ++ (records.get ⟨i, hi⟩).bitscore,
      by simp [fasta_header, String.append_assoc]⟩

/-- Witness for C6: in a two-winner list, position 0 carries `hit1` in
the enumeration and in its table row. -/
theorem join_key_consistency_witness :
    ([sampleHitA, sampleHitC].enumFrom 1)[0]? = some (0 + 1, sampleHitA) ∧
    (table_row (0 + 1) sampleHitA).head? = some ("hit" ++ toString (0 + 1)) :=
  ⟨(join_key_consistency [sampleHitA, sampleHitC] 0 (by decide)).2.2.1,
   (join_key_consistency [sampleHitA, sampleHitC] 0 (by decide)).2.2.2.1⟩
